import Mathlib

/-!
Verification of the terrain-generation and camera core of the repository.

Shallow embedding conventions:
- C++ `float`/`double` arithmetic is modelled over the real numbers `ℝ`
  (decimal literals are taken at their written value).
- C++ 32-bit `int` arithmetic inside the noise hash is modelled as
  wraparound arithmetic on two's-complement bit patterns, i.e. natural
  numbers reduced modulo `2 ^ 32`.
- `std::vector` push-back loops become `List.range`/`flatMap` builds in
  the same iteration order.
- The function-static mouse-tracking state of `update_camera`
  (`lastMouseX`, `lastMouseY`, `firstMouse`) is made explicit as a
  `MouseState` value threaded in and out of the update function.
-/

/-- A 3-component float vector, modelling `simd::float3`. -/
structure Float3 where
  x : ℝ
  y : ℝ
  z : ℝ

/-- A 4-component float vector, modelling `simd::float4`. -/
structure Float4 where
  x : ℝ
  y : ℝ
  z : ℝ
  w : ℝ

/-- A 4x4 matrix given by its four columns, modelling `simd::float4x4`. -/
structure Mat4 where
  c0 : Float4
  c1 : Float4
  c2 : Float4
  c3 : Float4

noncomputable section

/-- Componentwise vector addition, modelling `simd` `+` on `float3`. -/
def add3 (a b : Float3) : Float3 := ⟨a.x + b.x, a.y + b.y, a.z + b.z⟩

/-- Componentwise vector subtraction, modelling `simd` `-` on `float3`. -/
def sub3 (a b : Float3) : Float3 := ⟨a.x - b.x, a.y - b.y, a.z - b.z⟩

/-- Scalar multiplication of a `float3`, modelling `v * s`. -/
def smul3 (s : ℝ) (v : Float3) : Float3 := ⟨v.x * s, v.y * s, v.z * s⟩

/-- Dot product, modelling `simd::dot`. -/
def dot3 (a b : Float3) : ℝ := a.x * b.x + a.y * b.y + a.z * b.z

/-- Cross product, modelling `simd::cross`. -/
def cross3 (a b : Float3) : Float3 :=
  ⟨a.y * b.z - a.z * b.y, a.z * b.x - a.x * b.z, a.x * b.y - a.y * b.x⟩

/-- Euclidean length, modelling `simd::length`. -/
def length3 (v : Float3) : ℝ := Real.sqrt (dot3 v v)

/-- Normalization `v / length(v)`, modelling `simd::normalize`. -/
def normalize3 (v : Float3) : Float3 :=
  ⟨v.x / length3 v, v.y / length3 v, v.z / length3 v⟩

/-- Componentwise clamp of a scalar, `min(max(x, lo), hi)`. -/
def clampR (v lo hi : ℝ) : ℝ := min (max v lo) hi

/-- Componentwise clamp of a vector, modelling `simd::clamp`. -/
def clamp3 (v lo hi : Float3) : Float3 :=
  ⟨clampR v.x lo.x hi.x, clampR v.y lo.y hi.y, clampR v.z lo.z hi.z⟩

-- --- Noise engine (src/landscape.cpp) ---

/-- Anonymous-namespace constant `LANDSCAPE_WIDTH = 50`. -/
def LANDSCAPE_WIDTH : ℕ := 50

/-- Anonymous-namespace constant `LANDSCAPE_DEPTH = 50`. -/
def LANDSCAPE_DEPTH : ℕ := 50

/-- Anonymous-namespace constant `TERRAIN_SCALE = 5.0f`. -/
def TERRAIN_SCALE : ℝ := 5

/-- Anonymous-namespace constant `TERRAIN_HEIGHT = 12.0f`. -/
def TERRAIN_HEIGHT : ℝ := 12

/-- Two's-complement 32-bit bit pattern of an integer: wraparound mod `2^32`. -/
def wrap32 (n : ℤ) : ℕ := (n % (2 ^ 32)).toNat

/-- The integer bit-mixing part of `simple_noise`, on 32-bit wraparound
arithmetic: `n = x + z*57; n = (n << 13) ^ n;` then the polynomial
`n * (n * n * 15731 + 789221) + 1376312589` masked with `0x7fffffff`. -/
def maskedHash (x z : ℤ) : ℕ :=
  let n0 : ℕ := wrap32 (x + z * 57)
  let n1 : ℕ := ((n0 * 2 ^ 13) % 2 ^ 32) ^^^ n0
  ((n1 * (n1 * n1 * 15731 + 789221) + 1376312589) % 2 ^ 32) &&& 0x7fffffff

/-- `simple_noise` from landscape.cpp:
`1.0f - (maskedHash(x, z)) / 1073741824.0f`. -/
def simple_noise (x z : ℤ) : ℝ := 1 - (maskedHash x z : ℝ) / 1073741824

/-- `cosine_interpolate` from landscape.cpp. -/
def cosine_interpolate (a b blend : ℝ) : ℝ :=
  let ft := blend * 3.1415927
  let f := (1 - Real.cos ft) * 0.5
  a * (1 - f) + b * f

/-- `smoothed_noise` from landscape.cpp: bilinear cosine blend of the four
lattice values around `(x, z)`. -/
def smoothed_noise (x z : ℝ) : ℝ :=
  let int_x : ℤ := ⌊x⌋
  let int_z : ℤ := ⌊z⌋
  let frac_x : ℝ := x - int_x
  let frac_z : ℝ := z - int_z
  let v1 := simple_noise int_x int_z
  let v2 := simple_noise (int_x + 1) int_z
  let v3 := simple_noise int_x (int_z + 1)
  let v4 := simple_noise (int_x + 1) (int_z + 1)
  let i1 := cosine_interpolate v1 v2 frac_x
  let i2 := cosine_interpolate v3 v4 frac_x
  cosine_interpolate i1 i2 frac_z

/-- The octave loop of `fractal_noise`: `fractalGo x z freq amp n` adds `n`
more octaves starting at frequency `freq` and amplitude `amp`, with
persistence `0.45` and frequency doubling, as in the source loop. -/
def fractalGo (x z freq amp : ℝ) : ℕ → ℝ
  | 0 => 0
  | n + 1 => smoothed_noise (x * freq) (z * freq) * amp +
      fractalGo x z (freq * 2) (amp * 0.45) n

/-- `fractal_noise` from landscape.cpp: 5 octaves, starting frequency 1,
starting amplitude 1, persistence 0.45. -/
def fractal_noise (x z : ℝ) : ℝ := fractalGo x z 1 1 5

/-- `get_terrain_height` from landscape.cpp. -/
def get_terrain_height (x z : ℝ) : ℝ :=
  let noise_x := (x + (LANDSCAPE_WIDTH : ℝ) / 2) / (LANDSCAPE_WIDTH : ℝ) * TERRAIN_SCALE
  let noise_z := (z + (LANDSCAPE_DEPTH : ℝ) / 2) / (LANDSCAPE_DEPTH : ℝ) * TERRAIN_SCALE
  fractal_noise noise_x noise_z * TERRAIN_HEIGHT

end

-- --- Bounds on the noise engine ---

theorem maskedHash_le (x z : ℤ) : maskedHash x z ≤ 0x7fffffff :=
  Nat.and_le_right

theorem simple_noise_le_one (x z : ℤ) : simple_noise x z ≤ 1 := by
  unfold simple_noise
  have h0 : (0 : ℝ) ≤ (maskedHash x z : ℝ) := Nat.cast_nonneg _
  have : (0 : ℝ) ≤ (maskedHash x z : ℝ) / 1073741824 := by positivity
  linarith

theorem neg_one_lt_simple_noise (x z : ℤ) : -1 < simple_noise x z := by
  unfold simple_noise
  have h1 : (maskedHash x z : ℝ) ≤ 2147483647 := by
    exact_mod_cast maskedHash_le x z
  have h2 : (maskedHash x z : ℝ) / 1073741824 < 2 := by
    rw [div_lt_iff (by norm_num : (0:ℝ) < 1073741824)]
    linarith
  linarith

theorem abs_simple_noise_le_one (x z : ℤ) : |simple_noise x z| ≤ 1 := by
  rw [abs_le]
  exact ⟨le_of_lt (neg_one_lt_simple_noise x z), simple_noise_le_one x z⟩

theorem cosine_interpolate_bound {M : ℝ} (a b blend : ℝ)
    (ha : |a| ≤ M) (hb : |b| ≤ M) : |cosine_interpolate a b blend| ≤ M := by
  unfold cosine_interpolate
  have hc1 : Real.cos (blend * 3.1415927) ≤ 1 := Real.cos_le_one _
  have hc2 : -1 ≤ Real.cos (blend * 3.1415927) := Real.neg_one_le_cos _
  set f := (1 - Real.cos (blend * 3.1415927)) * 0.5 with hf
  have hf0 : 0 ≤ f := by rw [hf]; nlinarith
  have hf1 : f ≤ 1 := by rw [hf]; nlinarith
  have hM : 0 ≤ M := le_trans (abs_nonneg a) ha
  calc |a * (1 - f) + b * f| ≤ |a * (1 - f)| + |b * f| := abs_add _ _
    _ = |a| * (1 - f) + |b| * f := by
        rw [abs_mul, abs_mul, abs_of_nonneg (by linarith : (0:ℝ) ≤ 1 - f),
          abs_of_nonneg hf0]
    _ ≤ M * (1 - f) + M * f := by
        have := abs_nonneg a
        have := abs_nonneg b
        nlinarith
    _ = M := by ring

theorem abs_smoothed_noise_le_one (x z : ℝ) : |smoothed_noise x z| ≤ 1 := by
  unfold smoothed_noise
  apply cosine_interpolate_bound
  · exact cosine_interpolate_bound _ _ _ (abs_simple_noise_le_one _ _)
      (abs_simple_noise_le_one _ _)
  · exact cosine_interpolate_bound _ _ _ (abs_simple_noise_le_one _ _)
      (abs_simple_noise_le_one _ _)

/-- The geometric amplitude budget of the octave loop:
`geomC n = 1 + 0.45 * geomC (n-1)`. -/
def geomC : ℕ → ℝ
  | 0 => 0
  | n + 1 => 1 + 0.45 * geomC n

theorem geomC_nonneg : ∀ n, 0 ≤ geomC n := by
  intro n
  induction n with
  | zero => simp [geomC]
  | succ k ih => simp only [geomC]; nlinarith

theorem fractalGo_bound (x z : ℝ) :
    ∀ (n : ℕ) (freq amp : ℝ), 0 ≤ amp →
      |fractalGo x z freq amp n| ≤ amp * geomC n := by
  intro n
  induction n with
  | zero => intro freq amp ha; simp [fractalGo, geomC]
  | succ k ih =>
    intro freq amp ha
    have hs := abs_smoothed_noise_le_one (x * freq) (z * freq)
    have hrec := ih (freq * 2) (amp * 0.45) (by nlinarith)
    have hg := geomC_nonneg k
    calc |fractalGo x z freq amp (k + 1)|
        = |smoothed_noise (x * freq) (z * freq) * amp +
            fractalGo x z (freq * 2) (amp * 0.45) k| := by rfl
      _ ≤ |smoothed_noise (x * freq) (z * freq) * amp| +
            |fractalGo x z (freq * 2) (amp * 0.45) k| := abs_add _ _
      _ ≤ 1 * amp + amp * 0.45 * geomC k := by
          have h1 : |smoothed_noise (x * freq) (z * freq) * amp|
              = |smoothed_noise (x * freq) (z * freq)| * amp := by
            rw [abs_mul, abs_of_nonneg ha]
          rw [h1]
          have := abs_nonneg (smoothed_noise (x * freq) (z * freq))
          nlinarith
      _ = amp * geomC (k + 1) := by simp only [geomC]; ring

theorem abs_fractal_noise_le (x z : ℝ) : |fractal_noise x z| ≤ 1.78463125 := by
  have h := fractalGo_bound x z 5 1 1 (by norm_num)
  have hg : geomC 5 = 1.78463125 := by norm_num [geomC]
  unfold fractal_noise
  rw [hg] at h
  linarith

/-- C2: for every real input pair `(x, z)`, `get_terrain_height x z` lies in
the interval `[-25, 25]`: the 5-octave fractal sum with persistence 0.45 of a
base noise bounded by `[-1, 1]`, scaled by `TERRAIN_HEIGHT = 12`, cannot
leave this range. -/
theorem get_terrain_height_bounded (x z : ℝ) :
    -25 ≤ get_terrain_height x z ∧ get_terrain_height x z ≤ 25 := by
  unfold get_terrain_height
  have h := abs_fractal_noise_le
    ((x + (LANDSCAPE_WIDTH : ℝ) / 2) / (LANDSCAPE_WIDTH : ℝ) * TERRAIN_SCALE)
    ((z + (LANDSCAPE_DEPTH : ℝ) / 2) / (LANDSCAPE_DEPTH : ℝ) * TERRAIN_SCALE)
  rw [abs_le] at h
  unfold TERRAIN_HEIGHT
  constructor <;> nlinarith [h.1, h.2]

/-- C8: for every pair of integers, the masked hash of `simple_noise` lies in
`[0, 2^31 - 1]` (integer arithmetic read as 32-bit wraparound), hence the
returned value `1 - masked / 2^30` lies in `(-1, 1]`, in particular within
`[-1, 1]`. -/
theorem simple_noise_range (ix iz : ℤ) :
    maskedHash ix iz ≤ 2 ^ 31 - 1 ∧
      -1 < simple_noise ix iz ∧ simple_noise ix iz ≤ 1 :=
  ⟨by simpa using maskedHash_le ix iz, neg_one_lt_simple_noise ix iz,
    simple_noise_le_one ix iz⟩

-- --- Mesh data model (src/objects.hpp) and matrix utilities (src/camera.hpp) ---

/-- `Vertex` from objects.hpp: a position and a normal. -/
structure Vertex where
  position : Float3
  normal : Float3

/-- Default vertex used as the out-of-range fallback of list indexing
(`std::vector::operator[]` in range is always in range here). -/
def defV : Vertex := ⟨⟨0, 0, 0⟩, ⟨0, 0, 0⟩⟩

noncomputable section

/-- `matrix_translation` from camera.hpp. -/
def matrix_translation (tx ty tz : ℝ) : Mat4 :=
  ⟨⟨1, 0, 0, 0⟩, ⟨0, 1, 0, 0⟩, ⟨0, 0, 1, 0⟩, ⟨tx, ty, tz, 1⟩⟩

/-- `matrix_perspective_right_hand` from camera.hpp. -/
def matrix_perspective_right_hand (fovyRadians aspect nearZ farZ : ℝ) : Mat4 :=
  let ys := 1 / Real.tan (fovyRadians * 0.5)
  let xs := ys / aspect
  let zs := farZ / (nearZ - farZ)
  ⟨⟨xs, 0, 0, 0⟩, ⟨0, ys, 0, 0⟩, ⟨0, 0, zs, -1⟩, ⟨0, 0, zs * nearZ, 0⟩⟩

/-- `matrix_look_at_right_hand` from camera.hpp. -/
def matrix_look_at_right_hand (eye center up : Float3) : Mat4 :=
  let f := normalize3 (sub3 center eye)
  let s := normalize3 (cross3 f up)
  let u := cross3 s f
  ⟨⟨s.x, u.x, -f.x, 0⟩, ⟨s.y, u.y, -f.y, 0⟩, ⟨s.z, u.z, -f.z, 0⟩,
    ⟨-(dot3 s eye), -(dot3 u eye), dot3 f eye, 1⟩⟩

/-- `GameObject` from objects.hpp. -/
structure GameObject where
  modelMatrix : Mat4
  color : Float3
  vertices : List Vertex
  indices : List ℕ

/-- Height of the terrain grid vertex `(x, z)` for a `width × depth` mesh, as
computed in the vertex loop of `create_landscape`:
`fractal_noise((x / width) * TERRAIN_SCALE, (z / depth) * TERRAIN_SCALE) *
TERRAIN_HEIGHT`. -/
def landscapeHeight (w d x z : ℕ) : ℝ :=
  fractal_noise (((x : ℝ) / (w : ℝ)) * TERRAIN_SCALE)
    (((z : ℝ) / (d : ℝ)) * TERRAIN_SCALE) * TERRAIN_HEIGHT

/-- The vertex pushed by the first loop of `create_landscape`: position
`(x - width/2, y, z - depth/2)` with placeholder normal `(0, 1, 0)`. -/
def baseVertex (w d x z : ℕ) : Vertex :=
  ⟨⟨(x : ℝ) - (w : ℝ) / 2, landscapeHeight w d x z, (z : ℝ) - (d : ℝ) / 2⟩,
    ⟨0, 1, 0⟩⟩

/-- The vertex array built by the first loop of `create_landscape`, in
row-major push-back order (outer loop over `z`, inner loop over `x`). -/
def baseVertices (w d : ℕ) : List Vertex :=
  (List.range d).flatMap (fun z =>
    (List.range w).map (fun x => baseVertex w d x z))

/-- The body of the normal pass of `create_landscape` at grid cell `(x, z)`:
sample the heights of the four edge-clamped neighbors from the vertex array
and replace the normal by the normalized vector
`(heightL - heightR, 2, heightD - heightU)`. -/
def normalVertex (w d x z : ℕ) : Vertex :=
  let base := baseVertices w d
  let heightL := (base.getD (z * w + (if 0 < x then x - 1 else x)) defV).position.y
  let heightR := (base.getD (z * w + (if x < w - 1 then x + 1 else x)) defV).position.y
  let heightD := (base.getD ((if 0 < z then z - 1 else z) * w + x) defV).position.y
  let heightU := (base.getD ((if z < d - 1 then z + 1 else z) * w + x) defV).position.y
  { base.getD (z * w + x) defV with
      normal := normalize3 ⟨heightL - heightR, 2, heightD - heightU⟩ }

/-- The six indices pushed for the quad at cell `(x, z)` by the index loop of
`create_landscape`, in source order `i0, i2, i1, i1, i2, i3`. -/
def quadIndices (w x z : ℕ) : List ℕ :=
  [z * w + x, (z + 1) * w + x, z * w + x + 1,
   z * w + x + 1, (z + 1) * w + x, (z + 1) * w + x + 1]

/-- `create_landscape` from landscape.cpp: the vertex loop, the normal pass
(reading neighbor heights from the already-built vertex array, with indices
clamped at the grid edges), and the two-triangles-per-quad index loop. -/
def create_landscape (width depth : ℕ) : GameObject :=
  { modelMatrix := matrix_translation 0 0 0,
    color := ⟨0.3, 0.6, 0.2⟩,
    vertices := (List.range depth).flatMap (fun z =>
      (List.range width).map (fun x => normalVertex width depth x z)),
    indices := (List.range (depth - 1)).flatMap (fun z =>
      (List.range (width - 1)).flatMap (fun x => quadIndices width x z)) }

end

-- --- Indexing lemmas for row-major grid lists ---

theorem grid_length {α : Type} (w d : ℕ) (f : ℕ → ℕ → α) :
    ((List.range d).flatMap (fun z => (List.range w).map (f z))).length = d * w := by
  induction d with
  | zero => simp
  | succ n ih =>
    rw [List.range_succ, List.flatMap_append, List.length_append, ih]
    simp [Nat.succ_mul]

theorem grid_getD {α : Type} (w d x z : ℕ) (f : ℕ → ℕ → α) (dflt : α)
    (hx : x < w) (hz : z < d) :
    ((List.range d).flatMap (fun zz => (List.range w).map (f zz))).getD
      (z * w + x) dflt = f z x := by
  induction d with
  | zero => exact absurd hz (Nat.not_lt_zero z)
  | succ n ih =>
    rw [List.range_succ, List.flatMap_append]
    by_cases hzn : z < n
    · rw [List.getD_append _ _ _ _ (by
        rw [grid_length]
        calc z * w + x < z * w + w := by omega
          _ = (z + 1) * w := by ring
          _ ≤ n * w := Nat.mul_le_mul_right w hzn)]
      exact ih hzn
    · have hzn' : z = n := by omega
      subst hzn'
      have hlen : ((List.range z).flatMap (fun zz =>
          (List.range w).map (f zz))).length = z * w := grid_length w z f
      rw [List.getD_append_right _ _ _ _ (by rw [hlen]; omega), hlen]
      have hxx : z * w + x - z * w = x := by omega
      rw [hxx]
      simp only [List.flatMap_cons, List.flatMap_nil, List.append_nil]
      rw [List.getD_eq_getElem _ _ (by simpa using hx)]
      simp [hx]

theorem length_flatMap_const {α β : Type} (l : List α) (g : α → List β) (c : ℕ)
    (h : ∀ a, (g a).length = c) : (l.flatMap g).length = l.length * c := by
  induction l with
  | nil => simp
  | cons hd tl ih =>
    simp only [List.flatMap_cons, List.length_append, List.length_cons, ih, h]
    ring

theorem baseVertices_getD (w d x z : ℕ) (hx : x < w) (hz : z < d) :
    (baseVertices w d).getD (z * w + x) defV = baseVertex w d x z :=
  grid_getD w d x z (fun zz xx => baseVertex w d xx zz) defV hx hz

theorem normalVertex_eq (w d x z : ℕ) (hx : x < w) (hz : z < d) :
    normalVertex w d x z =
      { baseVertex w d x z with
          normal := normalize3
            ⟨landscapeHeight w d (if 0 < x then x - 1 else x) z -
                landscapeHeight w d (if x < w - 1 then x + 1 else x) z, 2,
              landscapeHeight w d x (if 0 < z then z - 1 else z) -
                landscapeHeight w d x (if z < d - 1 then z + 1 else z)⟩ } := by
  have hL : (if 0 < x then x - 1 else x) < w := by split_ifs <;> omega
  have hR : (if x < w - 1 then x + 1 else x) < w := by split_ifs <;> omega
  have hDn : (if 0 < z then z - 1 else z) < d := by split_ifs <;> omega
  have hUp : (if z < d - 1 then z + 1 else z) < d := by split_ifs <;> omega
  simp only [normalVertex]
  rw [baseVertices_getD w d _ z hL hz, baseVertices_getD w d _ z hR hz,
    baseVertices_getD w d x _ hx hDn, baseVertices_getD w d x _ hx hUp,
    baseVertices_getD w d x z hx hz]
  simp [baseVertex]

theorem create_landscape_getD (w d x z : ℕ) (hx : x < w) (hz : z < d) :
    (create_landscape w d).vertices.getD (z * w + x) defV =
      normalVertex w d x z :=
  grid_getD w d x z (fun zz xx => normalVertex w d xx zz) defV hx hz

theorem create_landscape_vertices_length (w d : ℕ) :
    (create_landscape w d).vertices.length = d * w :=
  grid_length w d (fun zz xx => normalVertex w d xx zz)

theorem lt_grid {a b d w : ℕ} (ha : a < d) (hb : b < w) : a * w + b < w * d := by
  calc a * w + b < a * w + w := by omega
    _ = (a + 1) * w := by ring
    _ ≤ d * w := Nat.mul_le_mul_right w ha
    _ = w * d := Nat.mul_comm d w

/-- C1: for positive `width` and `depth`, the mesh from
`create_landscape width depth` has `width * depth` vertices and
`2 * (width-1) * (depth-1) * 3` indices, the index count is a multiple of 3,
and every index is strictly below the vertex count. -/
theorem create_landscape_counts (width depth : ℕ)
    (hw : 0 < width) (hd : 0 < depth) :
    (create_landscape width depth).vertices.length = width * depth ∧
      (create_landscape width depth).indices.length =
        2 * (width - 1) * (depth - 1) * 3 ∧
      3 ∣ (create_landscape width depth).indices.length ∧
      ∀ i ∈ (create_landscape width depth).indices, i < width * depth := by
  have hvl : (create_landscape width depth).vertices.length = width * depth := by
    rw [create_landscape_vertices_length]; exact Nat.mul_comm depth width
  have hil : (create_landscape width depth).indices.length =
      2 * (width - 1) * (depth - 1) * 3 := by
    show ((List.range (depth - 1)).flatMap (fun z =>
      (List.range (width - 1)).flatMap (fun x =>
        quadIndices width x z))).length = 2 * (width - 1) * (depth - 1) * 3
    rw [length_flatMap_const _ _ ((width - 1) * 6) (fun z => by
      rw [length_flatMap_const _ _ 6 (fun x => by simp [quadIndices])]
      simp)]
    simp only [List.length_range]
    generalize width - 1 = a
    generalize depth - 1 = b
    ring
  refine ⟨hvl, hil, ?_, ?_⟩
  · rw [hil]
    exact Dvd.intro (2 * (width - 1) * (depth - 1)) (by ring)
  · intro i hi
    have hi' : i ∈ (List.range (depth - 1)).flatMap (fun z =>
        (List.range (width - 1)).flatMap (fun x => quadIndices width x z)) := hi
    rw [List.mem_flatMap] at hi'
    obtain ⟨z, hz, hiz⟩ := hi'
    rw [List.mem_flatMap] at hiz
    obtain ⟨x, hx, hix⟩ := hiz
    rw [List.mem_range] at hz hx
    have hz1 : z + 1 < depth := by omega
    have hx1 : x + 1 < width := by omega
    simp only [quadIndices, List.mem_cons, List.not_mem_nil, or_false] at hix
    rcases hix with h | h | h | h | h | h <;> subst h
    · exact lt_grid (by omega) (by omega)
    · exact lt_grid hz1 (by omega)
    · have := lt_grid (d := depth) (w := width) (by omega : z < depth) hx1
      omega
    · have := lt_grid (d := depth) (w := width) (by omega : z < depth) hx1
      omega
    · exact lt_grid hz1 (by omega)
    · have := lt_grid (d := depth) (w := width) hz1 hx1
      omega

theorem create_landscape_counts_witness :
    0 < 2 ∧
      ((create_landscape 2 2).vertices.length = 2 * 2 ∧
        (create_landscape 2 2).indices.length = 2 * (2 - 1) * (2 - 1) * 3 ∧
        3 ∣ (create_landscape 2 2).indices.length ∧
        ∀ i ∈ (create_landscape 2 2).indices, i < 2 * 2) :=
  ⟨by decide, create_landscape_counts 2 2 (by decide) (by decide)⟩

/-- C3: for a mesh built with `create_landscape 50 50`, querying
`get_terrain_height` at the world-space x and z coordinates of the vertex at
row-major index `z*50+x` returns exactly the height stored in that vertex. -/
theorem get_terrain_height_consistent (x z : ℕ) (hx : x < 50) (hz : z < 50) :
    get_terrain_height
        (((create_landscape 50 50).vertices.getD (z * 50 + x) defV).position.x)
        (((create_landscape 50 50).vertices.getD (z * 50 + x) defV).position.z) =
      ((create_landscape 50 50).vertices.getD (z * 50 + x) defV).position.y := by
  rw [create_landscape_getD 50 50 x z hx hz, normalVertex_eq 50 50 x z hx hz]
  show get_terrain_height ((baseVertex 50 50 x z).position.x)
      ((baseVertex 50 50 x z).position.z) = (baseVertex 50 50 x z).position.y
  simp only [baseVertex, get_terrain_height, landscapeHeight,
    LANDSCAPE_WIDTH, LANDSCAPE_DEPTH]
  norm_num

theorem get_terrain_height_consistent_witness :
    (0 : ℕ) < 50 ∧
      get_terrain_height
          (((create_landscape 50 50).vertices.getD (0 * 50 + 0) defV).position.x)
          (((create_landscape 50 50).vertices.getD (0 * 50 + 0) defV).position.z) =
        ((create_landscape 50 50).vertices.getD (0 * 50 + 0) defV).position.y :=
  ⟨by decide, get_terrain_height_consistent 0 0 (by decide) (by decide)⟩

theorem normalize3_length (v : Float3) (h : 0 < dot3 v v) :
    length3 (normalize3 v) = 1 := by
  unfold dot3 at h
  simp only [length3, normalize3, dot3]
  have hsq : Real.sqrt (v.x * v.x + v.y * v.y + v.z * v.z) *
      Real.sqrt (v.x * v.x + v.y * v.y + v.z * v.z) =
      v.x * v.x + v.y * v.y + v.z * v.z := Real.mul_self_sqrt (le_of_lt h)
  have hpos : 0 < Real.sqrt (v.x * v.x + v.y * v.y + v.z * v.z) :=
    Real.sqrt_pos.mpr h
  have harg : v.x / Real.sqrt (v.x * v.x + v.y * v.y + v.z * v.z) *
        (v.x / Real.sqrt (v.x * v.x + v.y * v.y + v.z * v.z)) +
      v.y / Real.sqrt (v.x * v.x + v.y * v.y + v.z * v.z) *
        (v.y / Real.sqrt (v.x * v.x + v.y * v.y + v.z * v.z)) +
      v.z / Real.sqrt (v.x * v.x + v.y * v.y + v.z * v.z) *
        (v.z / Real.sqrt (v.x * v.x + v.y * v.y + v.z * v.z)) = 1 := by
    field_simp
  rw [harg, Real.sqrt_one]

theorem normalize3_y2_length (a b : ℝ) :
    length3 (normalize3 ⟨a, 2, b⟩) = 1 := by
  apply normalize3_length
  simp only [dot3]
  nlinarith [mul_self_nonneg a, mul_self_nonneg b]

theorem normalize3_y2_pos (a b : ℝ) : 0 < (normalize3 ⟨a, 2, b⟩).y := by
  simp only [normalize3, length3, dot3]
  exact div_pos (by norm_num)
    (Real.sqrt_pos.mpr (by nlinarith [mul_self_nonneg a, mul_self_nonneg b]))

/-- C7: every vertex normal of `create_landscape width depth` equals the
normalized vector `(heightL - heightR, 2, heightD - heightU)` of the
edge-clamped neighbor heights, and hence has unit length within 1e-5. -/
theorem create_landscape_normals (w d x z : ℕ) (hx : x < w) (hz : z < d) :
    ((create_landscape w d).vertices.getD (z * w + x) defV).normal =
        normalize3
          ⟨landscapeHeight w d (if 0 < x then x - 1 else x) z -
              landscapeHeight w d (if x < w - 1 then x + 1 else x) z, 2,
            landscapeHeight w d x (if 0 < z then z - 1 else z) -
              landscapeHeight w d x (if z < d - 1 then z + 1 else z)⟩ ∧
      |length3 (((create_landscape w d).vertices.getD (z * w + x) defV).normal)
          - 1| ≤ 1e-5 := by
  rw [create_landscape_getD w d x z hx hz, normalVertex_eq w d x z hx hz]
  refine ⟨rfl, ?_⟩
  show |length3 (normalize3 _) - 1| ≤ 1e-5
  rw [normalize3_y2_length]
  norm_num

theorem create_landscape_normals_witness :
    (0 : ℕ) < 1 ∧
      (((create_landscape 1 1).vertices.getD (0 * 1 + 0) defV).normal =
          normalize3
            ⟨landscapeHeight 1 1 (if 0 < 0 then 0 - 1 else 0) 0 -
                landscapeHeight 1 1 (if 0 < 1 - 1 then 0 + 1 else 0) 0, 2,
              landscapeHeight 1 1 0 (if 0 < 0 then 0 - 1 else 0) -
                landscapeHeight 1 1 0 (if 0 < 1 - 1 then 0 + 1 else 0)⟩ ∧
        |length3 (((create_landscape 1 1).vertices.getD (0 * 1 + 0) defV).normal)
            - 1| ≤ 1e-5) :=
  ⟨by decide, create_landscape_normals 1 1 0 0 (by decide) (by decide)⟩

/-- C9: every vertex normal of a generated landscape has a strictly positive
y component: the pre-normalization vector always has y = 2, which also makes
it non-zero, so the normalization is well defined. -/
theorem create_landscape_normal_up (w d x z : ℕ) (hx : x < w) (hz : z < d) :
    0 < (((create_landscape w d).vertices.getD (z * w + x) defV).normal).y := by
  rw [create_landscape_getD w d x z hx hz, normalVertex_eq w d x z hx hz]
  exact normalize3_y2_pos _ _

theorem create_landscape_normal_up_witness :
    (0 : ℕ) < 1 ∧
      0 < (((create_landscape 1 1).vertices.getD (0 * 1 + 0) defV).normal).y :=
  ⟨by decide, create_landscape_normal_up 1 1 0 0 (by decide) (by decide)⟩

-- --- Camera controller (src/camera.hpp) ---

/-- The held movement keys the camera reads from the `keys[1024]` array:
W, S, A, D, space, C, X. -/
structure Keys where
  w : Bool
  s : Bool
  a : Bool
  d : Bool
  space : Bool
  c : Bool
  x : Bool

/-- All movement keys released. -/
def noKeys : Keys := ⟨false, false, false, false, false, false, false⟩

/-- The function-static mouse-tracking state of `update_camera`
(`lastMouseX`, `lastMouseY`, `firstMouse`) made explicit. -/
structure MouseState where
  lastX : ℝ
  lastY : ℝ
  firstMouse : Bool

/-- The initial values of the static locals: zero-initialized last pointer
position and `firstMouse = true`. -/
def initialMouseState : MouseState := ⟨0, 0, true⟩

/-- `Camera` from camera.hpp. -/
structure Camera where
  position : Float3
  yaw : ℝ
  pitch : ℝ
  moveSpeed : ℝ
  lookSpeed : ℝ
  viewMatrix : Mat4
  projectionMatrix : Mat4

/-- The zero matrix: value of the value-initialized `viewMatrix` in
`Camera cam{}`. -/
def zeroMat4 : Mat4 :=
  ⟨⟨0, 0, 0, 0⟩, ⟨0, 0, 0, 0⟩, ⟨0, 0, 0, 0⟩, ⟨0, 0, 0, 0⟩⟩

noncomputable section

/-- `make_camera` from camera.hpp: position `(0,0,3)`, yaw 0, pitch 0,
default speeds, perspective projection with fovy `pi/3`. -/
def make_camera (width height : ℕ) : Camera :=
  { position := ⟨0, 0, 3⟩
    yaw := 0
    pitch := 0
    moveSpeed := 8
    lookSpeed := 0.005
    viewMatrix := zeroMat4
    projectionMatrix := matrix_perspective_right_hand (Real.pi / 3)
      ((width : ℝ) / (height : ℝ)) 0.1 100 }

/-- `update_camera` from camera.hpp, with the static mouse state made
explicit: look update (mouse delta, pitch clamp), move update (key
accumulation, conditional normalization, position clamp), view matrix. -/
def update_camera (cam : Camera) (ms : MouseState) (dt : ℝ) (keys : Keys)
    (mouseX mouseY : ℝ) : Camera × MouseState :=
  let lastX := if ms.firstMouse then mouseX else ms.lastX
  let lastY := if ms.firstMouse then mouseY else ms.lastY
  let deltaX := mouseX - lastX
  let deltaY := mouseY - lastY
  let yaw1 := cam.yaw + deltaX * cam.lookSpeed
  let pitch0 := cam.pitch - deltaY * cam.lookSpeed
  let pitch1 := if pitch0 > 1.5708 then 1.5708 else pitch0
  let pitch2 := if pitch1 < -1.5708 then -1.5708 else pitch1
  let cos_pitch := Real.cos pitch2
  let forward := normalize3 ⟨Real.sin yaw1 * cos_pitch, Real.sin pitch2,
    -(Real.cos yaw1) * cos_pitch⟩
  let right := normalize3 (cross3 forward ⟨0, 1, 0⟩)
  let m0 : Float3 := ⟨0, 0, 0⟩
  let m1 := if keys.w then add3 m0 forward else m0
  let m2 := if keys.s then sub3 m1 forward else m1
  let m3 := if keys.a then sub3 m2 right else m2
  let m4 := if keys.d then add3 m3 right else m3
  let m5 : Float3 := if keys.space then ⟨m4.x, m4.y + 1, m4.z⟩ else m4
  let m6 : Float3 := if keys.c || keys.x then ⟨m5.x, m5.y - 1, m5.z⟩ else m5
  let pos1 := if length3 m6 > 0.01 then
      add3 cam.position (smul3 dt (smul3 cam.moveSpeed (normalize3 m6)))
    else cam.position
  let pos2 := clamp3 pos1 ⟨-20, 0, -20⟩ ⟨20, 20, 20⟩
  ({ cam with
      position := pos2
      yaw := yaw1
      pitch := pitch2
      viewMatrix := matrix_look_at_right_hand pos2 (add3 pos2 forward)
        ⟨0, 1, 0⟩ },
    ⟨mouseX, mouseY, false⟩)

end

-- --- Camera claims ---

theorem clampR_le (v lo hi : ℝ) : clampR v lo hi ≤ hi := min_le_right _ _

theorem le_clampR (v lo hi : ℝ) (h : lo ≤ hi) : lo ≤ clampR v lo hi :=
  le_min (le_max_right v lo) h

theorem clampR_eq_self (v lo hi : ℝ) (h1 : lo ≤ v) (h2 : v ≤ hi) :
    clampR v lo hi = v := by
  unfold clampR
  rw [max_eq_left h1, min_eq_left h2]

/-- C4 counterexample: starting from a fresh camera with stored mouse state
`(0, 0, firstMouse := false)`, a single large upward pointer delta drives the
pitch to the clamp value 1.5708, which is strictly greater than pi/2 - so the
pitch does not stay strictly inside the open interval (-pi/2, pi/2). -/
theorem update_camera_pitch_above_half_pi :
    Real.pi / 2 <
      (update_camera (make_camera 800 600) ⟨0, 0, false⟩ 1 noKeys
        0 (-10000)).1.pitch := by
  have h : (update_camera (make_camera 800 600) ⟨0, 0, false⟩ 1 noKeys
      0 (-10000)).1.pitch = 1.5708 := by
    simp only [update_camera, make_camera, noKeys]
    norm_num
  rw [h]
  have hpi : Real.pi < 3.141593 := Real.pi_lt_d6
  linarith

/-- C4 (amended): after every call to `update_camera`, the camera pitch lies
in the closed interval [-1.5708, 1.5708] radians, for every starting state
and every pointer delta. -/
theorem update_camera_pitch_clamped (cam : Camera) (ms : MouseState) (dt : ℝ)
    (keys : Keys) (mouseX mouseY : ℝ) :
    -1.5708 ≤ (update_camera cam ms dt keys mouseX mouseY).1.pitch ∧
      (update_camera cam ms dt keys mouseX mouseY).1.pitch ≤ 1.5708 := by
  refine ⟨?_, ?_⟩ <;>
    · simp only [update_camera]
      split_ifs <;> linarith

/-- C5: on the very first update after camera creation (stored mouse state
has `firstMouse = true`), the pointer delta is zero: yaw and pitch are left
unchanged regardless of the pointer coordinates supplied, and the stored
last pointer position is initialized to the current pointer position. -/
theorem update_camera_first_call_zero_delta (vw vh : ℕ) (lx ly dt : ℝ)
    (keys : Keys) (mouseX mouseY : ℝ) :
    (update_camera (make_camera vw vh) ⟨lx, ly, true⟩ dt keys
          mouseX mouseY).1.yaw = (make_camera vw vh).yaw ∧
      (update_camera (make_camera vw vh) ⟨lx, ly, true⟩ dt keys
          mouseX mouseY).1.pitch = (make_camera vw vh).pitch ∧
      (update_camera (make_camera vw vh) ⟨lx, ly, true⟩ dt keys
          mouseX mouseY).2 = ⟨mouseX, mouseY, false⟩ := by
  refine ⟨?_, ?_, rfl⟩ <;>
    · simp only [update_camera, make_camera]
      norm_num

theorem length3_zero : length3 ⟨0, 0, 0⟩ = 0 := by
  simp [length3, dot3, Real.sqrt_zero]

/-- C6: after every `update_camera` call the camera position lies in the
bounding box [-20,20] x [0,20] x [-20,20]; and concretely, a camera at
(19.9, 0, 0) with yaw = pitch = 0 holding only strafe-right for dt = 10
seconds ends with x exactly 20. -/
theorem update_camera_position_in_box :
    (∀ (cam : Camera) (ms : MouseState) (dt : ℝ) (keys : Keys)
        (mouseX mouseY : ℝ),
        -20 ≤ (update_camera cam ms dt keys mouseX mouseY).1.position.x ∧
          (update_camera cam ms dt keys mouseX mouseY).1.position.x ≤ 20 ∧
          0 ≤ (update_camera cam ms dt keys mouseX mouseY).1.position.y ∧
          (update_camera cam ms dt keys mouseX mouseY).1.position.y ≤ 20 ∧
          -20 ≤ (update_camera cam ms dt keys mouseX mouseY).1.position.z ∧
          (update_camera cam ms dt keys mouseX mouseY).1.position.z ≤ 20) ∧
      (update_camera { make_camera 800 600 with position := ⟨19.9, 0, 0⟩ }
          initialMouseState 10 { noKeys with d := true } 0 0).1.position.x
        = 20 := by
  constructor
  · intro cam ms dt keys mouseX mouseY
    simp only [update_camera, clamp3]
    exact ⟨le_clampR _ _ _ (by norm_num), clampR_le _ _ _,
      le_clampR _ _ _ (by norm_num), clampR_le _ _ _,
      le_clampR _ _ _ (by norm_num), clampR_le _ _ _⟩
  · simp only [update_camera, make_camera, initialMouseState, noKeys, clamp3,
      clampR, add3, sub3, smul3, cross3, normalize3, length3, dot3]
    norm_num [Real.sqrt_one, min_def, max_def]

/-- C10: the move direction is normalized only when its length exceeds 0.01;
with no movement keys held, or with exactly opposing horizontal keys held
(forward together with back, left together with right), the direction cancels
to zero and a camera already inside the bounding box keeps its position. -/
theorem update_camera_idle_keeps_position (cam : Camera) (ms : MouseState)
    (dt : ℝ) (keys : Keys) (mouseX mouseY : ℝ)
    (hws : keys.w = keys.s) (had : keys.a = keys.d)
    (hsp : keys.space = false) (hc : keys.c = false) (hx : keys.x = false)
    (hx1 : -20 ≤ cam.position.x) (hx2 : cam.position.x ≤ 20)
    (hy1 : 0 ≤ cam.position.y) (hy2 : cam.position.y ≤ 20)
    (hz1 : -20 ≤ cam.position.z) (hz2 : cam.position.z ≤ 20) :
    (update_camera cam ms dt keys mouseX mouseY).1.position = cam.position := by
  simp only [update_camera, hsp, hc, hx, ← hws, ← had]
  rcases Bool.eq_false_or_eq_true keys.w with hw | hw <;>
    rcases Bool.eq_false_or_eq_true keys.a with ha | ha <;>
      · simp only [hw, ha, if_true, if_false, Bool.false_or, Bool.or_self,
          add3, sub3]
        norm_num [length3, dot3, Real.sqrt_zero, clamp3]
        rw [clampR_eq_self _ _ _ hx1 hx2, clampR_eq_self _ _ _ hy1 hy2,
          clampR_eq_self _ _ _ hz1 hz2]

theorem update_camera_idle_keeps_position_witness :
    (update_camera (make_camera 800 600) initialMouseState 1 noKeys
        0 0).1.position = (make_camera 800 600).position :=
  update_camera_idle_keeps_position (make_camera 800 600) initialMouseState
    1 noKeys 0 0 rfl rfl rfl rfl rfl
    (by norm_num [make_camera]) (by norm_num [make_camera])
    (by norm_num [make_camera]) (by norm_num [make_camera])
    (by norm_num [make_camera]) (by norm_num [make_camera])
